import Mathlib

/-!
Verification of `clean_config.py`.

The script reads `backend/config/essenceTap.js` into memory, applies two
`re.sub` substitutions with `flags=re.MULTILINE` —
`r' *// v[0-9]\.[0-9]:.*$'` and then `r' *// was .*$'`, both with empty
replacement — writes the result back to the same path and prints a two-line
report.

Embedding notes.  Text is modelled as `List Char`.  With `re.MULTILINE`,
`$` anchors to each position before a `'\n'` and to the end of the buffer,
and neither `' '`, `'/'` nor `.` can match `'\n'`, so each substitution
acts independently on the `'\n'`-separated segments of the buffer
(`splitLines` / `joinLines`).  Within one line, every match of
`' *<marker>.*$'` runs to the end of the line (the greedy `.*$` must reach
the anchor), so there is at most one match per line — the leftmost one,
which is the longest matching suffix — and deleting it truncates the line
at the match's start (`stripLine`).  A suffix matches the pattern exactly
when, after the greedy `' *'` group has consumed its leading spaces, the
fixed marker test succeeds (`matchesAt` with `isVerTail` / `isWasTail`).
The read/write/report structure of the script is modelled by `runProgram`
over a path-indexed filesystem `Fs`.
-/

namespace ConfigClean

/-- The character test for the regex atom ` ` (a literal ASCII space),
used by the leading `' *'` group of both substitution patterns in
`clean_config.py`. -/
def isSpaceCh (c : Char) : Bool := c == ' '

/-- After the leading spaces have been dropped, a suffix is matched by the
first pattern `' *// v[0-9]\.[0-9]:.*$'` exactly when it starts with the
eight characters `/`, `/`, ` `, `v`, a digit, `.`, a digit, `:`; the regex
tail `.*$` then consumes the remainder of the line unconditionally. -/
def isVerTail (s : List Char) : Bool :=
  match s with
  | a :: b :: c :: d :: e :: f :: g :: h :: _ =>
    a == '/' && b == '/' && c == ' ' && d == 'v' && e.isDigit && f == '.' &&
      g.isDigit && h == ':'
  | _ => false

/-- After the leading spaces have been dropped, a suffix is matched by the
second pattern `' *// was .*$'` exactly when it starts with the seven
characters `/`, `/`, ` `, `w`, `a`, `s`, ` `. -/
def isWasTail (s : List Char) : Bool :=
  match s with
  | a :: b :: c :: d :: e :: f :: g :: _ =>
    a == '/' && b == '/' && c == ' ' && d == 'w' && e == 'a' && f == 's' && g == ' '
  | _ => false

/-- A regex of the form `' *<marker>.*$'` matches the whole suffix `s` of a
line exactly when, after greedily consuming the run of leading spaces, the
marker test `m` succeeds (backtracking to fewer spaces cannot help, since
the marker starts with `/`). -/
def matchesAt (m : List Char → Bool) (s : List Char) : Bool :=
  m (s.dropWhile isSpaceCh)

/-- One `re.sub(r' *<marker>.*$', '', line)` step on a single line: the
leftmost position whose suffix matches the pattern starts the match, the
match necessarily extends to the end of the line (`.*$` is greedy and `.`
cannot cross a newline), and the replacement is empty, so everything from
that position on is deleted. -/
def stripLine (m : List Char → Bool) : List Char → List Char
  | [] => []
  | c :: rest => if matchesAt m (c :: rest) then [] else c :: stripLine m rest

/-- Splitting a text buffer into its `'\n'`-separated segments, the way
`re.MULTILINE` delimits the lines that `$` anchors to.  A text with `n`
newline characters yields `n + 1` segments. -/
def splitLines : List Char → List (List Char)
  | [] => [[]]
  | c :: rest =>
    if c = '\n' then [] :: splitLines rest
    else
      match splitLines rest with
      | [] => [[c]]
      | l :: ls => (c :: l) :: ls

/-- Reassembling the `'\n'`-separated segments of a text buffer. -/
def joinLines : List (List Char) → List Char
  | [] => []
  | [l] => l
  | l :: l' :: ls => l ++ '\n' :: joinLines (l' :: ls)

/-- Substitution 1 of `clean_config.py` (line 15):
`re.sub(r' *// v[0-9]\.[0-9]:.*$', '', content, flags=re.MULTILINE)`. -/
def sub1 (s : List Char) : List Char :=
  joinLines ((splitLines s).map (stripLine isVerTail))

/-- Substitution 2 of `clean_config.py` (line 18):
`re.sub(r' *// was .*$', '', content, flags=re.MULTILINE)`. -/
def sub2 (s : List Char) : List Char :=
  joinLines ((splitLines s).map (stripLine isWasTail))

/-- The whole in-memory transformation of `clean_config.py`: substitution 2
applied to the output of substitution 1. -/
def clean (s : List Char) : List Char := sub2 (sub1 s)

/-- The action of the whole transformation on a single line. -/
def cleanLine (l : List Char) : List Char :=
  stripLine isWasTail (stripLine isVerTail l)

/-- The relation asserting that `l₁` is a prefix of `l₂`. -/
def IsPref (l₁ l₂ : List Char) : Prop := ∃ t, l₁ ++ t = l₂

/-- The eight marker characters of the concrete comment `// v1.2:` named by
the suffix-only-removal property. -/
def vm : List Char := ['/', '/', ' ', 'v', '1', '.', '2', ':']

/-- The error cases of the underlying read layer: missing file, unreadable
file, or bytes that are not valid UTF-8. -/
inductive FsErr where
  | fileNotFound
  | permissionDenied
  | decodeFailure

/-- The filesystem the script runs against: attempting to read any path
yields either its decoded text or a read error. -/
structure Fs where
  file : String → Except FsErr (List Char)

/-- Line 7 of the script: `input_file = 'backend/config/essenceTap.js'`. -/
def input_file : String := "backend/config/essenceTap.js"

/-- Line 8 of the script: `output_file = 'backend/config/essenceTap.js'`. -/
def output_file : String := "backend/config/essenceTap.js"

/-- Writing a path replaces that file's readable content and touches no
other path. -/
def writeF (fs : Fs) (p : String) (c : List Char) : Fs :=
  ⟨fun q => if q = p then Except.ok c else fs.file q⟩

/-- First report line, `print(f"Cleaned config file: {output_file}")`. -/
def report1 : List Char := ("Cleaned config file: " ++ output_file).data

/-- Second report line, `print("Removed all inline version comments")`. -/
def report2 : List Char := "Removed all inline version comments".data

/-- The whole script: read `input_file` entirely (an error aborts the run
with nothing written and nothing printed), transform the content, write it
to `output_file`, and print the two report lines. -/
def runProgram (fs : Fs) : Fs × Except FsErr (List (List Char)) :=
  match fs.file input_file with
  | Except.error e => (fs, Except.error e)
  | Except.ok content =>
    (writeF fs output_file (clean content), Except.ok [report1, report2])

theorem isPref_subset {l₁ l₂ : List Char} (h : IsPref l₁ l₂) {c : Char}
    (hc : c ∈ l₁) : c ∈ l₂ := by
  obtain ⟨t, rfl⟩ := h
  exact List.mem_append_left t hc

theorem isPref_trans {a b c : List Char} (h₁ : IsPref a b) (h₂ : IsPref b c) :
    IsPref a c := by
  obtain ⟨t, rfl⟩ := h₁
  obtain ⟨u, rfl⟩ := h₂
  exact ⟨t ++ u, by simp⟩

theorem isPref_length {a b : List Char} (h : IsPref a b) : a.length ≤ b.length := by
  obtain ⟨t, rfl⟩ := h
  simp

theorem isPref_drop {a b : List Char} (j : Nat) (h : IsPref a b) :
    IsPref (a.drop j) (b.drop j) := by
  obtain ⟨t, rfl⟩ := h
  induction a generalizing j with
  | nil => exact ⟨(t.drop j), by simp⟩
  | cons c a ih =>
    cases j with
    | zero => exact ⟨t, rfl⟩
    | succ j => simpa using ih j

theorem stripLine_pref (m : List Char → Bool) (l : List Char) :
    IsPref (stripLine m l) l := by
  induction l with
  | nil => exact ⟨[], rfl⟩
  | cons c rest ih =>
    by_cases h : matchesAt m (c :: rest) = true
    · exact ⟨c :: rest, by simp [stripLine, h]⟩
    · obtain ⟨t, ht⟩ := ih
      exact ⟨t, by simp [stripLine, h, ht]⟩

theorem dropWhile_append_ne (q : Char → Bool) (xs ys : List Char)
    (h : xs.dropWhile q ≠ []) :
    (xs ++ ys).dropWhile q = xs.dropWhile q ++ ys := by
  induction xs with
  | nil => simp at h
  | cons a xs ih =>
    by_cases ha : q a
    · rw [List.cons_append, List.dropWhile_cons_of_pos ha,
        List.dropWhile_cons_of_pos ha]
      rw [List.dropWhile_cons_of_pos ha] at h
      exact ih h
    · rw [List.cons_append, List.dropWhile_cons_of_neg ha,
        List.dropWhile_cons_of_neg ha, List.cons_append]

theorem matchesAt_pref {m : List Char → Bool}
    (hext : ∀ x t, m x = true → m (x ++ t) = true) (hnil : m [] = false)
    {x u : List Char} (hpre : IsPref x u) (hx : matchesAt m x = true) :
    matchesAt m u = true := by
  obtain ⟨t, rfl⟩ := hpre
  unfold matchesAt at hx ⊢
  by_cases hx0 : x.dropWhile isSpaceCh = []
  · rw [hx0] at hx
    simp [hnil] at hx
  · rw [dropWhile_append_ne _ _ _ hx0]
    exact hext _ _ hx

theorem isVerTail_nil : isVerTail [] = false := rfl

theorem isWasTail_nil : isWasTail [] = false := rfl

theorem isVerTail_ext : ∀ x t : List Char, isVerTail x = true → isVerTail (x ++ t) = true := by
  intro x t hx
  rcases x with _ | ⟨a, _ | ⟨b, _ | ⟨c, _ | ⟨d, _ | ⟨e, _ | ⟨f, _ | ⟨g, _ | ⟨h, r⟩⟩⟩⟩⟩⟩⟩⟩ <;>
    first
      | exact hx
      | exact Bool.noConfusion hx

theorem isWasTail_ext : ∀ x t : List Char, isWasTail x = true → isWasTail (x ++ t) = true := by
  intro x t hx
  rcases x with _ | ⟨a, _ | ⟨b, _ | ⟨c, _ | ⟨d, _ | ⟨e, _ | ⟨f, _ | ⟨g, r⟩⟩⟩⟩⟩⟩⟩ <;>
    first
      | exact hx
      | exact Bool.noConfusion hx

theorem matchesAt_nil {m : List Char → Bool} (hnil : m [] = false) :
    matchesAt m [] = false := hnil

theorem stripLine_no_match {m : List Char → Bool}
    (hext : ∀ x t, m x = true → m (x ++ t) = true) (hnil : m [] = false)
    (l : List Char) : ∀ j, matchesAt m ((stripLine m l).drop j) = false := by
  induction l with
  | nil =>
    intro j
    show matchesAt m (([] : List Char).drop j) = false
    rw [List.drop_nil]
    exact matchesAt_nil hnil
  | cons c rest ih =>
    intro j
    by_cases h : matchesAt m (c :: rest) = true
    · show matchesAt m ((stripLine m (c :: rest)).drop j) = false
      rw [show stripLine m (c :: rest) = [] from by simp [stripLine, h], List.drop_nil]
      exact matchesAt_nil hnil
    · rw [show stripLine m (c :: rest) = c :: stripLine m rest from by
        simp [stripLine, h]]
      cases j with
      | zero =>
        rw [List.drop_zero]
        cases hb : matchesAt m (c :: stripLine m rest) with
        | false => rfl
        | true =>
          exfalso
          apply h
          have hpre : IsPref (c :: stripLine m rest) (c :: rest) := by
            obtain ⟨t, ht⟩ := stripLine_pref m rest
            exact ⟨t, by rw [List.cons_append, ht]⟩
          exact matchesAt_pref hext hnil hpre hb
      | succ j =>
        rw [List.drop_succ_cons]
        exact ih j

theorem stripLine_id_of_no_match {m : List Char → Bool} (l : List Char)
    (h : ∀ j, matchesAt m (l.drop j) = false) : stripLine m l = l := by
  induction l with
  | nil => rfl
  | cons c rest ih =>
    have h0 : matchesAt m (c :: rest) = false := by simpa using h 0
    rw [show stripLine m (c :: rest) = c :: stripLine m rest from by
      simp [stripLine, h0]]
    rw [ih fun j => by simpa using h (j + 1)]

theorem stripLine_idem {m : List Char → Bool}
    (hext : ∀ x t, m x = true → m (x ++ t) = true) (hnil : m [] = false)
    (l : List Char) : stripLine m (stripLine m l) = stripLine m l :=
  stripLine_id_of_no_match _ (stripLine_no_match hext hnil l)

theorem no_match_pref {m : List Char → Bool}
    (hext : ∀ x t, m x = true → m (x ++ t) = true) (hnil : m [] = false)
    {u v : List Char} (hpre : IsPref u v)
    (h : ∀ j, matchesAt m (v.drop j) = false) :
    ∀ j, matchesAt m (u.drop j) = false := by
  intro j
  cases hb : matchesAt m (u.drop j) with
  | false => rfl
  | true =>
    exfalso
    have := matchesAt_pref hext hnil (isPref_drop j hpre) hb
    rw [h j] at this
    exact Bool.noConfusion this

theorem stripLine_spec {m : List Char → Bool} (hnil : m [] = false)
    (l : List Char) :
    ((∀ j, matchesAt m (l.drop j) = false) ∧ stripLine m l = l) ∨
      (∃ i, matchesAt m (l.drop i) = true ∧
        (∀ j, j < i → matchesAt m (l.drop j) = false) ∧
        stripLine m l = l.take i) := by
  induction l with
  | nil =>
    left
    refine ⟨fun j => ?_, rfl⟩
    rw [List.drop_nil]
    exact matchesAt_nil hnil
  | cons c rest ih =>
    by_cases h : matchesAt m (c :: rest) = true
    · right
      exact ⟨0, by simpa using h, fun j hj => absurd hj (Nat.not_lt_zero j),
        by simp [stripLine, h]⟩
    · have h0 : matchesAt m (c :: rest) = false := by
        cases hb : matchesAt m (c :: rest) with
        | false => rfl
        | true => exact absurd hb h
      rcases ih with ⟨hno, heq⟩ | ⟨i, hi, hmin, heq⟩
      · left
        refine ⟨fun j => ?_, by simp [stripLine, h, heq]⟩
        cases j with
        | zero => simpa using h0
        | succ j => simpa using hno j
      · right
        refine ⟨i + 1, by simpa using hi, fun j hj => ?_, by simp [stripLine, h, heq]⟩
        cases j with
        | zero => simpa using h0
        | succ j =>
          rw [List.drop_succ_cons]
          exact hmin j (Nat.lt_of_succ_lt_succ hj)

theorem no_match_unbdd (m : List Char → Bool) (l : List Char)
    (h : ∀ j, j < l.length + 1 → matchesAt m (l.drop j) = false) :
    ∀ j, matchesAt m (l.drop j) = false := by
  intro j
  by_cases hj : j < l.length + 1
  · exact h j hj
  · have hd : l.drop j = [] := List.drop_eq_nil_of_le (by omega)
    have h2 := h l.length (by omega)
    rw [List.drop_length] at h2
    rw [hd]
    exact h2

theorem splitLines_ne_nil (s : List Char) : splitLines s ≠ [] := by
  cases s with
  | nil => simp [splitLines]
  | cons c rest =>
    by_cases h : c = '\n'
    · simp [splitLines, h]
    · simp only [splitLines, if_neg h]
      cases hs : splitLines rest <;> simp

theorem mem_splitLines_no_nl (s : List Char) :
    ∀ l ∈ splitLines s, '\n' ∉ l := by
  induction s with
  | nil =>
    intro l hl
    simp [splitLines] at hl
    simp [hl]
  | cons c rest ih =>
    intro l hl
    by_cases h : c = '\n'
    · rw [show splitLines (c :: rest) = [] :: splitLines rest from by
        simp [splitLines, h]] at hl
      rcases List.mem_cons.mp hl with rfl | hl
      · simp
      · exact ih l hl
    · simp only [splitLines, if_neg h] at hl
      cases hs : splitLines rest with
      | nil => exact absurd hs (splitLines_ne_nil rest)
      | cons m ms =>
        rw [hs] at hl
        rcases List.mem_cons.mp hl with rfl | hl
        · intro hmem
          rcases List.mem_cons.mp hmem with he | hmem
          · exact h he.symm
          · exact ih m (hs ▸ List.mem_cons_self m ms) hmem
        · exact ih l (hs ▸ List.mem_cons_of_mem m hl)

theorem joinLines_splitLines (s : List Char) : joinLines (splitLines s) = s := by
  induction s with
  | nil => rfl
  | cons c rest ih =>
    by_cases h : c = '\n'
    · subst h
      rw [show splitLines ('\n' :: rest) = [] :: splitLines rest from by
        simp [splitLines]]
      cases hs : splitLines rest with
      | nil => exact absurd hs (splitLines_ne_nil rest)
      | cons m ms =>
        rw [hs] at ih
        show joinLines ([] :: m :: ms) = '\n' :: rest
        rw [joinLines, List.nil_append, ih]
    · simp only [splitLines, if_neg h]
      cases hs : splitLines rest with
      | nil => exact absurd hs (splitLines_ne_nil rest)
      | cons m ms =>
        rw [hs] at ih
        cases ms with
        | nil =>
          show joinLines [c :: m] = c :: rest
          have hm : m = rest := ih
          rw [show joinLines [c :: m] = c :: m from rfl, hm]
        | cons m' ms' =>
          show joinLines ((c :: m) :: m' :: ms') = c :: rest
          rw [joinLines, List.cons_append]
          rw [joinLines] at ih
          rw [ih]

theorem splitLines_no_nl (l : List Char) (h : '\n' ∉ l) : splitLines l = [l] := by
  induction l with
  | nil => rfl
  | cons c rest ih =>
    have hc : ¬c = '\n' := fun e => h (e ▸ List.mem_cons_self c rest)
    have hr : '\n' ∉ rest := fun hm => h (List.mem_cons_of_mem c hm)
    simp only [splitLines, if_neg hc, ih hr]

theorem splitLines_join_nl (l t : List Char) (h : '\n' ∉ l) :
    splitLines (l ++ '\n' :: t) = l :: splitLines t := by
  induction l with
  | nil => simp [splitLines]
  | cons c rest ih =>
    have hc : ¬c = '\n' := fun e => h (e ▸ List.mem_cons_self c rest)
    have hr : '\n' ∉ rest := fun hm => h (List.mem_cons_of_mem c hm)
    rw [List.cons_append]
    simp only [splitLines, if_neg hc]
    rw [ih hr]

theorem splitLines_joinLines (ls : List (List Char)) (hne : ls ≠ [])
    (h : ∀ l ∈ ls, '\n' ∉ l) : splitLines (joinLines ls) = ls := by
  induction ls with
  | nil => exact absurd rfl hne
  | cons l ls ih =>
    cases ls with
    | nil =>
      show splitLines (joinLines [l]) = [l]
      rw [show joinLines [l] = l from rfl]
      exact splitLines_no_nl l (h l (List.mem_cons_self l []))
    | cons l' ls' =>
      show splitLines (joinLines (l :: l' :: ls')) = l :: l' :: ls'
      rw [joinLines, splitLines_join_nl l _ (h l (List.mem_cons_self l _)),
        ih (by simp) fun x hx => h x (List.mem_cons_of_mem l hx)]

theorem splitLines_joinLines_map (f : List Char → List Char)
    (hf : ∀ l, IsPref (f l) l) (s : List Char) :
    splitLines (joinLines ((splitLines s).map f)) = (splitLines s).map f := by
  apply splitLines_joinLines
  · intro hcon
    exact splitLines_ne_nil s (List.map_eq_nil_iff.mp hcon)
  · intro l hl
    obtain ⟨x, hx, rfl⟩ := List.mem_map.mp hl
    intro hmem
    exact mem_splitLines_no_nl s x hx (isPref_subset (hf x) hmem)

theorem cleanLine_pref (l : List Char) : IsPref (cleanLine l) l :=
  isPref_trans (stripLine_pref isWasTail (stripLine isVerTail l))
    (stripLine_pref isVerTail l)

theorem clean_eq_map (s : List Char) :
    clean s = joinLines ((splitLines s).map cleanLine) := by
  show sub2 (sub1 s) = _
  unfold sub2 sub1
  rw [splitLines_joinLines_map (stripLine isVerTail) (stripLine_pref isVerTail) s,
    List.map_map]
  rfl

theorem splitLines_clean (s : List Char) :
    splitLines (clean s) = (splitLines s).map cleanLine := by
  rw [clean_eq_map]
  exact splitLines_joinLines_map cleanLine cleanLine_pref s

theorem cleanLine_idem (l : List Char) : cleanLine (cleanLine l) = cleanLine l := by
  show stripLine isWasTail (stripLine isVerTail (cleanLine l)) = cleanLine l
  have h1 : stripLine isVerTail (cleanLine l) = cleanLine l := by
    apply stripLine_id_of_no_match
    exact no_match_pref isVerTail_ext isVerTail_nil
      (stripLine_pref isWasTail (stripLine isVerTail l))
      (stripLine_no_match isVerTail_ext isVerTail_nil l)
  rw [h1]
  exact stripLine_idem isWasTail_ext isWasTail_nil (stripLine isVerTail l)

theorem clean_idem_line_level (s : List Char) : clean (clean s) = clean s := by
  rw [clean_eq_map (clean s), splitLines_clean s, List.map_map,
    show cleanLine ∘ cleanLine = cleanLine from funext cleanLine_idem,
    ← clean_eq_map s]

theorem joinLines_map_length_le (f : List Char → List Char)
    (hf : ∀ l, IsPref (f l) l) :
    ∀ ls : List (List Char), (joinLines (ls.map f)).length ≤ (joinLines ls).length := by
  intro ls
  induction ls with
  | nil => simp
  | cons l ls ih =>
    cases ls with
    | nil =>
      show (joinLines [f l]).length ≤ (joinLines [l]).length
      rw [show joinLines [f l] = f l from rfl, show joinLines [l] = l from rfl]
      exact isPref_length (hf l)
    | cons l' ls' =>
      show (joinLines (f l :: f l' :: ls'.map f)).length ≤
        (joinLines (l :: l' :: ls')).length
      rw [joinLines, joinLines]
      simp only [List.length_append, List.length_cons]
      have h1 := isPref_length (hf l)
      have h2 : (joinLines (f l' :: ls'.map f)).length ≤
          (joinLines (l' :: ls')).length := ih
      omega

theorem clean_length_le (s : List Char) : (clean s).length ≤ s.length := by
  rw [clean_eq_map s]
  calc (joinLines ((splitLines s).map cleanLine)).length
      ≤ (joinLines (splitLines s)).length :=
        joinLines_map_length_le cleanLine cleanLine_pref (splitLines s)
    _ = s.length := by rw [joinLines_splitLines]

theorem isVerTail_sp1 (t : List Char) : isVerTail (' ' :: t) = false := by
  rcases t with _ | ⟨a, _ | ⟨b, _ | ⟨c, _ | ⟨d, _ | ⟨e, _ | ⟨f, _ | ⟨g, t⟩⟩⟩⟩⟩⟩⟩ <;> rfl

theorem isVerTail_sp2 (a : Char) (t : List Char) :
    isVerTail (a :: ' ' :: t) = false := by
  rcases t with _ | ⟨x1, _ | ⟨x2, _ | ⟨x3, _ | ⟨x4, _ | ⟨x5, _ | ⟨x6, t⟩⟩⟩⟩⟩⟩ <;>
    simp [isVerTail, show (' ' == '/') = false from rfl]

theorem isVerTail_sp4 (a b c : Char) (t : List Char) :
    isVerTail (a :: b :: c :: ' ' :: t) = false := by
  rcases t with _ | ⟨x1, _ | ⟨x2, _ | ⟨x3, _ | ⟨x4, t⟩⟩⟩⟩ <;>
    simp [isVerTail, show (' ' == 'v') = false from rfl]

theorem isVerTail_sp5 (a b c d : Char) (t : List Char) :
    isVerTail (a :: b :: c :: d :: ' ' :: t) = false := by
  rcases t with _ | ⟨x1, _ | ⟨x2, _ | ⟨x3, t⟩⟩⟩ <;>
    simp [isVerTail, show Char.isDigit ' ' = false from rfl]

theorem isVerTail_sp6 (a b c d e : Char) (t : List Char) :
    isVerTail (a :: b :: c :: d :: e :: ' ' :: t) = false := by
  rcases t with _ | ⟨x1, _ | ⟨x2, t⟩⟩ <;>
    simp [isVerTail, show (' ' == '.') = false from rfl]

theorem isVerTail_sp7 (a b c d e f : Char) (t : List Char) :
    isVerTail (a :: b :: c :: d :: e :: f :: ' ' :: t) = false := by
  rcases t with _ | ⟨x1, t⟩ <;>
    simp [isVerTail, show Char.isDigit ' ' = false from rfl]

theorem isVerTail_sp8 (a b c d e f g : Char) (t : List Char) :
    isVerTail (a :: b :: c :: d :: e :: f :: g :: ' ' :: t) = false := by
  simp [isVerTail, show (' ' == ':') = false from rfl]

theorem isVerTail_w_sp (w note : List Char) (k : Nat)
    (hw : isVerTail w = false) :
    isVerTail (w ++ ' ' :: (List.replicate k ' ' ++ (vm ++ note))) = false := by
  rcases w with _ | ⟨a, _ | ⟨b, _ | ⟨c, _ | ⟨d, _ | ⟨e, _ | ⟨f, _ | ⟨g, _ | ⟨h, r⟩⟩⟩⟩⟩⟩⟩⟩
  · exact isVerTail_sp1 _
  · exact isVerTail_sp2 _ _
  · cases k with
    | zero =>
      show isVerTail (a :: b :: ' ' :: '/' :: '/' :: ' ' :: 'v' :: '1' ::
        ('.' :: '2' :: ':' :: note)) = false
      simp [isVerTail, show ('/' == 'v') = false from rfl]
    | succ k' => exact isVerTail_sp4 a b ' ' _
  · exact isVerTail_sp4 _ _ _ _
  · exact isVerTail_sp5 _ _ _ _ _
  · exact isVerTail_sp6 _ _ _ _ _ _
  · exact isVerTail_sp7 _ _ _ _ _ _ _
  · exact isVerTail_sp8 _ _ _ _ _ _ _ _
  · exact hw

theorem getLast_of_all_space (l : List Char) (hne : l ≠ [])
    (h : l.dropWhile isSpaceCh = []) : l.getLast? = some ' ' := by
  induction l with
  | nil => exact absurd rfl hne
  | cons c rest ih =>
    have hc : isSpaceCh c = true := by
      cases hb : isSpaceCh c with
      | true => rfl
      | false =>
        rw [List.dropWhile_cons_of_neg (by simp [hb])] at h
        exact absurd h (by simp)
    have hc' : c = ' ' := by simpa [isSpaceCh] using hc
    rw [List.dropWhile_cons_of_pos hc] at h
    cases rest with
    | nil => simp [hc']
    | cons d rest' =>
      rw [List.getLast?_cons_cons]
      exact ih (by simp) h

theorem dropWhile_replicate_sp (k : Nat) (x : List Char) :
    (List.replicate k ' ' ++ x).dropWhile isSpaceCh = x.dropWhile isSpaceCh := by
  induction k with
  | zero => rfl
  | succ k ih =>
    rw [List.replicate_succ, List.cons_append,
      List.dropWhile_cons_of_pos (by simp [isSpaceCh])]
    exact ih

theorem matchesAt_marker_head (k : Nat) (note : List Char) :
    matchesAt isVerTail (' ' :: (List.replicate k ' ' ++ (vm ++ note))) = true := by
  unfold matchesAt
  rw [List.dropWhile_cons_of_pos (by simp [isSpaceCh]), dropWhile_replicate_sp]
  rw [show (vm ++ note).dropWhile isSpaceCh = vm ++ note from rfl]
  rfl

theorem matchesAt_marker_cons_false (p : List Char) (k : Nat) (note : List Char)
    (h0 : matchesAt isVerTail p = false) (hsp : p.dropWhile isSpaceCh ≠ []) :
    matchesAt isVerTail (p ++ ' ' :: (List.replicate k ' ' ++ (vm ++ note))) = false := by
  unfold matchesAt
  rw [dropWhile_append_ne _ _ _ hsp]
  exact isVerTail_w_sp _ note k h0

theorem stripLine_marker (p note : List Char) (k : Nat)
    (h1 : ∀ j, matchesAt isVerTail (p.drop j) = false)
    (h2 : p.getLast? ≠ some ' ') :
    stripLine isVerTail (p ++ ' ' :: (List.replicate k ' ' ++ (vm ++ note))) = p := by
  induction p with
  | nil =>
    rw [List.nil_append]
    rw [show stripLine isVerTail (' ' :: (List.replicate k ' ' ++ (vm ++ note))) =
      [] from by simp [stripLine, matchesAt_marker_head k note]]
  | cons c p' ih =>
    have hw : (c :: p').dropWhile isSpaceCh ≠ [] := by
      intro hcon
      exact h2 (getLast_of_all_space _ (by simp) hcon)
    have hcond := matchesAt_marker_cons_false (c :: p') k note (by simpa using h1 0) hw
    rw [List.cons_append] at hcond ⊢
    rw [show stripLine isVerTail
        (c :: (p' ++ ' ' :: (List.replicate k ' ' ++ (vm ++ note)))) =
        c :: stripLine isVerTail (p' ++ ' ' :: (List.replicate k ' ' ++ (vm ++ note)))
      from by simp [stripLine, hcond]]
    have h2' : p'.getLast? ≠ some ' ' := by
      cases p' with
      | nil => simp
      | cons d p'' =>
        rw [List.getLast?_cons_cons] at h2
        exact h2
    rw [ih (fun j => by simpa using h1 (j + 1)) h2']

/-- C1: for every input text, substitution 1 acts line by line, and on each
line it either leaves the line unchanged (when no suffix of the line matches
the pattern `' *// v[0-9]\.[0-9]:.*$'`) or deletes exactly the longest
matching suffix — the suffix starting at the least index `i` at which the
pattern matches, the leading spaces included — replacing it with nothing. -/
theorem c1_longest_suffix_removed (s l : List Char) :
    sub1 s = joinLines ((splitLines s).map (stripLine isVerTail)) ∧
    (((∀ j, matchesAt isVerTail (l.drop j) = false) ∧ stripLine isVerTail l = l) ∨
      (∃ i, matchesAt isVerTail (l.drop i) = true ∧
        (∀ j, j < i → matchesAt isVerTail (l.drop j) = false) ∧
        stripLine isVerTail l = l.take i)) :=
  ⟨rfl, stripLine_spec isVerTail_nil l⟩

/-- C2: the whole transformation is substitution 2 applied to the output of
substitution 1, not to the original text; consequently, whenever the
`' *// was .*$'` pattern matches at position `j` of a line already
transformed by substitution 1, the final line is cut at the least matching
position `i ≤ j` — the `// was` suffix is removed from the final output. -/
theorem c2_sequential_application (s l : List Char) (j : Nat)
    (h : matchesAt isWasTail ((stripLine isVerTail l).drop j) = true) :
    clean s = sub2 (sub1 s) ∧
    ∃ i, i ≤ j ∧ cleanLine l = (stripLine isVerTail l).take i ∧
      matchesAt isWasTail ((stripLine isVerTail l).drop i) = true ∧
      ∀ j', j' < i → matchesAt isWasTail ((stripLine isVerTail l).drop j') = false := by
  refine ⟨rfl, ?_⟩
  rcases stripLine_spec isWasTail_nil (stripLine isVerTail l) with
    ⟨hno, _⟩ | ⟨i, hi, hmin, heq⟩
  · rw [hno j] at h
    exact absurd h (by simp)
  · refine ⟨i, ?_, heq, hi, hmin⟩
    by_contra hij
    rw [hmin j (by omega)] at h
    exact absurd h (by simp)

/-- C2 witness: on the line `a // was b // v1.2: c`, substitution 1 leaves
`a // was b`, whose suffix at position 1 matches pattern 2, and the final
output is cut there. -/
theorem c2_witness :
    matchesAt isWasTail ((stripLine isVerTail ("a // was b // v1.2: c").data).drop 1) =
      true ∧
    (clean ([] : List Char) = sub2 (sub1 []) ∧
      ∃ i, i ≤ 1 ∧
        cleanLine ("a // was b // v1.2: c").data =
          (stripLine isVerTail ("a // was b // v1.2: c").data).take i ∧
        matchesAt isWasTail
          ((stripLine isVerTail ("a // was b // v1.2: c").data).drop i) = true ∧
        ∀ j', j' < i →
          matchesAt isWasTail
            ((stripLine isVerTail ("a // was b // v1.2: c").data).drop j') = false) :=
  ⟨by decide, c2_sequential_application [] ("a // was b // v1.2: c").data 1 (by decide)⟩

/-- C3: the whole transformation (substitution 1 followed by substitution 2)
is idempotent: applying it to its own output returns that output
unchanged. -/
theorem c3_idempotent (s : List Char) : clean (clean s) = clean s :=
  clean_idem_line_level s

/-- C4 counterexample: the claim fails for the prefix `a // v9.9: b`, which
itself ends in a version comment; on the line
`a // v9.9: b // v1.2: note` substitution 1 cuts at the earlier marker and
returns `a`, not the prefix `a // v9.9: b`. -/
theorem c4_counterexample :
    ¬ (sub1 ("a // v9.9: b // v1.2: note").data = ("a // v9.9: b").data) := by
  decide

/-- C4 amended: for every line `<prefix><one or more spaces>// v1.2:<note>`
in which the prefix contains no suffix matched by pattern 1, does not end
with a space, and neither prefix nor note contains a newline, substitution 1
transforms the line to exactly the prefix. -/
theorem c4_suffix_only_amended (p note : List Char) (k : Nat)
    (h1 : ∀ j, j < p.length + 1 → matchesAt isVerTail (p.drop j) = false)
    (h2 : p.getLast? ≠ some ' ')
    (h3 : '\n' ∉ p) (h4 : '\n' ∉ note) :
    sub1 (p ++ (' ' :: (List.replicate k ' ' ++ (vm ++ note)))) = p := by
  have hnl : '\n' ∉ p ++ (' ' :: (List.replicate k ' ' ++ (vm ++ note))) := by
    intro hmem
    rcases List.mem_append.mp hmem with hp | ht
    · exact h3 hp
    · rcases List.mem_cons.mp ht with he | ht
      · exact absurd he (by decide)
      · rcases List.mem_append.mp ht with hr | hv
        · exact absurd (List.eq_of_mem_replicate hr) (by decide)
        · rcases List.mem_append.mp hv with hm | hn
          · exact absurd hm (by decide)
          · exact h4 hn
  unfold sub1
  rw [splitLines_no_nl _ hnl]
  simp only [List.map_cons, List.map_nil]
  exact stripLine_marker p note k (no_match_unbdd _ _ h1) h2

/-- C4 witness: the prefix `timeout: 5000,` with two spaces and the note
`Reduced from 10000` satisfies the hypotheses, and the line is transformed
to exactly the prefix. -/
theorem c4_witness :
    (∀ j, j < ("timeout: 5000,").data.length + 1 →
      matchesAt isVerTail (("timeout: 5000,").data.drop j) = false) ∧
    ("timeout: 5000,").data.getLast? ≠ some ' ' ∧
    '\n' ∉ ("timeout: 5000,").data ∧
    '\n' ∉ ("Reduced from 10000").data ∧
    sub1 (("timeout: 5000,").data ++
      (' ' :: (List.replicate 1 ' ' ++ (vm ++ ("Reduced from 10000").data)))) =
      ("timeout: 5000,").data :=
  ⟨by decide, by decide, by decide, by decide,
    c4_suffix_only_amended _ _ 1 (by decide) (by decide) (by decide) (by decide)⟩

/-- C5: a line in which no suffix matches either pattern is byte-for-byte
unchanged by the whole transformation, and the output's lines are exactly
the transformed input lines in order — no line (in particular no line left
empty or whitespace-only by a removal) is deleted or further trimmed. -/
theorem c5_nonmatching_lines_unchanged (s l : List Char)
    (h1 : ∀ j, j < l.length + 1 → matchesAt isVerTail (l.drop j) = false)
    (h2 : ∀ j, j < l.length + 1 → matchesAt isWasTail (l.drop j) = false) :
    cleanLine l = l ∧ splitLines (clean s) = (splitLines s).map cleanLine := by
  constructor
  · show stripLine isWasTail (stripLine isVerTail l) = l
    rw [stripLine_id_of_no_match l (no_match_unbdd _ _ h1),
      stripLine_id_of_no_match l (no_match_unbdd _ _ h2)]
  · exact splitLines_clean s

/-- C5 witness: the line `name: tap,` matches neither pattern and is
unchanged inside a two-line input whose other line is rewritten. -/
theorem c5_witness :
    (∀ j, j < ("name: tap,").data.length + 1 →
      matchesAt isVerTail (("name: tap,").data.drop j) = false) ∧
    (∀ j, j < ("name: tap,").data.length + 1 →
      matchesAt isWasTail (("name: tap,").data.drop j) = false) ∧
    (cleanLine ("name: tap,").data = ("name: tap,").data ∧
      splitLines (clean ("a // v1.2: b\nname: tap,").data) =
        (splitLines ("a // v1.2: b\nname: tap,").data).map cleanLine) :=
  ⟨by decide, by decide,
    c5_nonmatching_lines_unchanged ("a // v1.2: b\nname: tap,").data _
      (by decide) (by decide)⟩

/-- C6: the two concrete scenario lines of the specification are transformed
exactly as stated. -/
theorem c6_scenario_lines :
    clean ("timeout: 5000,  // v3.0: Reduced from 10000").data =
      ("timeout: 5000,").data ∧
    clean ("retries: 3, // was retries: 5").data = ("retries: 3,").data :=
  ⟨by decide, by decide⟩

/-- C7: on an empty input file the transformation yields the empty text, the
file written back is empty, and the two-line completion report is still
printed. -/
theorem c7_empty_input (fs : Fs) (h : fs.file input_file = Except.ok []) :
    clean [] = [] ∧
    (runProgram fs).1.file output_file = Except.ok [] ∧
    (runProgram fs).2 = Except.ok [report1, report2] := by
  have hr : runProgram fs = (writeF fs output_file (clean []), Except.ok [report1, report2]) := by
    simp [runProgram, h]
  refine ⟨rfl, ?_, ?_⟩
  · rw [hr]
    show (if output_file = output_file then Except.ok (clean []) else fs.file output_file) =
      Except.ok []
    rw [if_pos rfl]
    rfl
  · rw [hr]

/-- C7 witness: a filesystem whose every path reads as the empty text. -/
theorem c7_witness :
    (Fs.mk fun _ => Except.ok ([] : List Char)).file input_file = Except.ok [] ∧
    (clean [] = [] ∧
      (runProgram (Fs.mk fun _ => Except.ok [])).1.file output_file = Except.ok [] ∧
      (runProgram (Fs.mk fun _ => Except.ok [])).2 = Except.ok [report1, report2]) :=
  ⟨rfl, c7_empty_input _ rfl⟩

/-- C8: when reading the input file fails with any error (file not found,
permission denied, or a UTF-8 decode failure), the program terminates with
that error before any write: the filesystem is returned unchanged and
nothing is printed. -/
theorem c8_read_failure_no_write (fs : Fs) (e : FsErr)
    (h : fs.file input_file = Except.error e) :
    runProgram fs = (fs, Except.error e) := by
  simp [runProgram, h]

/-- C8 witness: a filesystem on which every read reports file-not-found. -/
theorem c8_witness :
    (Fs.mk fun _ => Except.error FsErr.fileNotFound).file input_file =
      Except.error FsErr.fileNotFound ∧
    runProgram (Fs.mk fun _ => Except.error FsErr.fileNotFound) =
      (Fs.mk fun _ => Except.error FsErr.fileNotFound,
        Except.error FsErr.fileNotFound) :=
  ⟨rfl, c8_read_failure_no_write _ _ rfl⟩

/-- C9: after a successful run the program emits exactly the two report
lines `Cleaned config file: backend/config/essenceTap.js` and
`Removed all inline version comments`, in that order; the read path and the
write path are the same fixed path, the file at that path holds the
transformed content, and no other path is touched. -/
theorem c9_report_and_paths (fs : Fs) (c : List Char) (p : String)
    (h : fs.file input_file = Except.ok c) (hp : p ≠ output_file) :
    input_file = output_file ∧
    (runProgram fs).2 = Except.ok
      [("Cleaned config file: backend/config/essenceTap.js").data,
        ("Removed all inline version comments").data] ∧
    (runProgram fs).1.file output_file = Except.ok (clean c) ∧
    (runProgram fs).1.file p = fs.file p := by
  have hr : runProgram fs =
      (writeF fs output_file (clean c), Except.ok [report1, report2]) := by
    simp [runProgram, h]
  refine ⟨rfl, ?_, ?_, ?_⟩
  · rw [hr]
    rfl
  · rw [hr]
    show (if output_file = output_file then Except.ok (clean c) else fs.file output_file) =
      Except.ok (clean c)
    rw [if_pos rfl]
  · rw [hr]
    show (if p = output_file then Except.ok (clean c) else fs.file p) = fs.file p
    rw [if_neg hp]

/-- C9 witness: a successful run on a filesystem reading empty text
everywhere, with the untouched path instantiated to `x`. -/
theorem c9_witness :
    (Fs.mk fun _ => Except.ok ([] : List Char)).file input_file = Except.ok [] ∧
    ("x" : String) ≠ output_file ∧
    (input_file = output_file ∧
      (runProgram (Fs.mk fun _ => Except.ok [])).2 = Except.ok
        [("Cleaned config file: backend/config/essenceTap.js").data,
          ("Removed all inline version comments").data] ∧
      (runProgram (Fs.mk fun _ => Except.ok [])).1.file output_file =
        Except.ok (clean []) ∧
      (runProgram (Fs.mk fun _ => Except.ok [])).1.file "x" =
        (Fs.mk fun _ => Except.ok ([] : List Char)).file "x") :=
  ⟨rfl, by decide, c9_report_and_paths _ [] "x" rfl (by decide)⟩

/-- C10: every line of the output is a prefix of the corresponding line of
the input — the transformation never inserts characters, the number of
lines is unchanged, and the output length is at most the input length. -/
theorem c10_output_lines_are_prefixes (s : List Char) :
    splitLines (clean s) = (splitLines s).map cleanLine ∧
    (∀ l, IsPref (cleanLine l) l) ∧
    (splitLines (clean s)).length = (splitLines s).length ∧
    (clean s).length ≤ s.length :=
  ⟨splitLines_clean s, cleanLine_pref,
    by rw [splitLines_clean s, List.length_map], clean_length_le s⟩

end ConfigClean
